import Mathlib

/-!
Shallow embedding of the peg-solitaire solver (`src/main.rs`) and proofs about
its board model (`Grid`), move legality (`tile_actions`, `valid_actions`,
`verify_action`), move application (`perform_action`), and the memoized
depth-first traversal (`GameTree::search`).

Conventions of the embedding:
* Rust `usize` values are `Nat`.
* The 7×7 array `[[Tile; 7]; 7]` is a total function `Fin 7 → Fin 7 → Tile`.
* A Rust array access `grid[x][y]` with dynamic (possibly out-of-range)
  indices is `Grid.get? : Grid → Nat → Nat → Option Tile`; the `none` case is
  the out-of-bounds panic.  Likewise `Grid.set?` models an indexed store.
* A function that can panic (index out of range, or a failed `assert!`)
  returns an `Option`; `none` means the program aborts.
* `GameTree::search` takes the memo set by mutable reference; here it is
  threaded explicitly: the result is `Option (Option GameTree × List Grid)`,
  the outer `Option` being the panic layer (also used for the structurally
  unreachable fuel-exhaustion case) and the `List Grid` the memo set after
  the call.  Recursion depth is bounded by the filled-cell count, which
  strictly decreases on every legal move, so fuel `filled_count + 1` makes
  the fuel case unreachable (proved below as `search_total`).
-/

namespace Puzzle

/-- The three cell states of `enum Tile`. -/
inductive Tile where
  | Blocked : Tile
  | Filled : Tile
  | Empty : Tile
deriving DecidableEq, Repr

/-- The four jump directions of `enum Direction`. -/
inductive Direction where
  | Up : Direction
  | Down : Direction
  | Left : Direction
  | Right : Direction
deriving DecidableEq, Repr

/-- `struct Action { x: usize, y: usize, dir: Direction }`. -/
structure Action where
  x : Nat
  y : Nat
  dir : Direction
deriving DecidableEq, Repr

/-- `struct Grid { grid: [[Tile; 7]; 7] }`, as a total function on indices. -/
abbrev Grid := Fin 7 → Fin 7 → Tile

/-- Array read `self.grid[x][y]` with dynamic `usize` indices; `none` is the
out-of-bounds panic. -/
def Grid.get? (g : Grid) (x y : Nat) : Option Tile :=
  if hx : x < 7 then
    if hy : y < 7 then some (g ⟨x, hx⟩ ⟨y, hy⟩) else none
  else none

/-- Array write `grid[x][y] = t` with dynamic `usize` indices; `none` is the
out-of-bounds panic. -/
def Grid.set? (g : Grid) (x y : Nat) (t : Tile) : Option Grid :=
  if hx : x < 7 then
    if hy : y < 7 then
      some (fun i j => if i = ⟨x, hx⟩ ∧ j = ⟨y, hy⟩ then t else g i j)
    else none
  else none

/-- Array write at statically in-range indices (used by `Grid::new`, whose
indices are constants). -/
def Grid.setCell (g : Grid) (x y : Fin 7) (t : Tile) : Grid :=
  fun i j => if i = x ∧ j = y then t else g i j

/-- `Grid::new()`: all cells `Filled`, then the center emptied and the four
corner 2×2 blocks marked `Blocked`, in the source's assignment order. -/
def Grid.new : Grid :=
  let g0 : Grid := fun _ _ => Tile.Filled
  let g1 := g0.setCell 3 3 Tile.Empty
  let g2 := g1.setCell 0 0 Tile.Blocked
  let g3 := g2.setCell 0 1 Tile.Blocked
  let g4 := g3.setCell 1 0 Tile.Blocked
  let g5 := g4.setCell 1 1 Tile.Blocked
  let g6 := g5.setCell 5 0 Tile.Blocked
  let g7 := g6.setCell 5 1 Tile.Blocked
  let g8 := g7.setCell 6 0 Tile.Blocked
  let g9 := g8.setCell 6 1 Tile.Blocked
  let g10 := g9.setCell 0 5 Tile.Blocked
  let g11 := g10.setCell 0 6 Tile.Blocked
  let g12 := g11.setCell 1 5 Tile.Blocked
  let g13 := g12.setCell 1 6 Tile.Blocked
  let g14 := g13.setCell 5 5 Tile.Blocked
  let g15 := g14.setCell 5 6 Tile.Blocked
  let g16 := g15.setCell 6 5 Tile.Blocked
  g16.setCell 6 6 Tile.Blocked

/-- `Grid::tile_actions(x, y)`.  The source receives `usize` coordinates but
is only ever called with loop indices `0..7`, and every array access it makes
is guarded by the same range test as in the source (`x > 1`, `x < 5`, …), so
on its actual domain `Fin 7 × Fin 7` it is total.  Pushes are in source
order: `Left`, `Right`, `Up`, `Down`. -/
def tile_actions (g : Grid) (x y : Fin 7) : List Action :=
  if g x y ≠ Tile.Filled then []
  else
    (if h : 1 < x.val then
      if g ⟨x.val - 1, Nat.lt_of_le_of_lt (Nat.sub_le _ _) x.isLt⟩ y = Tile.Filled ∧
         g ⟨x.val - 2, Nat.lt_of_le_of_lt (Nat.sub_le _ _) x.isLt⟩ y = Tile.Empty
      then [⟨x.val, y.val, Direction.Left⟩] else []
    else []) ++
    (if h : x.val < 5 then
      if g ⟨x.val + 1, by omega⟩ y = Tile.Filled ∧
         g ⟨x.val + 2, by omega⟩ y = Tile.Empty
      then [⟨x.val, y.val, Direction.Right⟩] else []
    else []) ++
    (if h : 1 < y.val then
      if g x ⟨y.val - 1, Nat.lt_of_le_of_lt (Nat.sub_le _ _) y.isLt⟩ = Tile.Filled ∧
         g x ⟨y.val - 2, Nat.lt_of_le_of_lt (Nat.sub_le _ _) y.isLt⟩ = Tile.Empty
      then [⟨x.val, y.val, Direction.Up⟩] else []
    else []) ++
    (if h : y.val < 5 then
      if g x ⟨y.val + 1, by omega⟩ = Tile.Filled ∧
         g x ⟨y.val + 2, by omega⟩ = Tile.Empty
      then [⟨x.val, y.val, Direction.Down⟩] else []
    else [])

/-- `Grid::valid_actions()`: concatenation of `tile_actions` over all cells,
`x` outer and `y` inner, in increasing order. -/
def valid_actions (g : Grid) : List Action :=
  (List.finRange 7).flatMap fun x => (List.finRange 7).flatMap fun y => tile_actions g x y

/-- `Grid::verify_action(action)`.  `none` models the out-of-bounds panic:
the source bound-checks only the offset in the move's direction (`y < 2`,
`y > 4`, `x < 2`, `x > 4`) and then indexes with the raw `usize`
coordinates.  Note it never examines the source cell itself. -/
def verify_action (g : Grid) (a : Action) : Option Bool :=
  match a.dir with
  | Direction.Up =>
    if a.y < 2 then some false
    else
      match g.get? a.x (a.y - 1) with
      | none => none
      | some t1 =>
        if t1 ≠ Tile.Filled then some false
        else
          match g.get? a.x (a.y - 2) with
          | none => none
          | some t2 => if t2 ≠ Tile.Empty then some false else some true
  | Direction.Down =>
    if a.y > 4 then some false
    else
      match g.get? a.x (a.y + 1) with
      | none => none
      | some t1 =>
        if t1 ≠ Tile.Filled then some false
        else
          match g.get? a.x (a.y + 2) with
          | none => none
          | some t2 => if t2 ≠ Tile.Empty then some false else some true
  | Direction.Left =>
    if a.x < 2 then some false
    else
      match g.get? (a.x - 1) a.y with
      | none => none
      | some t1 =>
        if t1 ≠ Tile.Filled then some false
        else
          match g.get? (a.x - 2) a.y with
          | none => none
          | some t2 => if t2 ≠ Tile.Empty then some false else some true
  | Direction.Right =>
    if a.x > 4 then some false
    else
      match g.get? (a.x + 1) a.y with
      | none => none
      | some t1 =>
        if t1 ≠ Tile.Filled then some false
        else
          match g.get? (a.x + 2) a.y with
          | none => none
          | some t2 => if t2 ≠ Tile.Empty then some false else some true

/-- `Grid::perform_action(action)`: `assert!(verify_action(action))` (both a
failed assertion and a panic inside `verify_action` abort, i.e. `none`),
then the three stores in source order: source cell to `Empty`, jumped cell
to `Empty`, landing cell to `Filled`.  A store at an out-of-range index is
also a panic. -/
def perform_action (g : Grid) (a : Action) : Option Grid :=
  match verify_action g a with
  | none => none
  | some false => none
  | some true =>
    match g.set? a.x a.y Tile.Empty with
    | none => none
    | some g1 =>
      match a.dir with
      | Direction.Up =>
        match g1.set? a.x (a.y - 1) Tile.Empty with
        | none => none
        | some g2 => g2.set? a.x (a.y - 2) Tile.Filled
      | Direction.Down =>
        match g1.set? a.x (a.y + 1) Tile.Empty with
        | none => none
        | some g2 => g2.set? a.x (a.y + 2) Tile.Filled
      | Direction.Left =>
        match g1.set? (a.x - 1) a.y Tile.Empty with
        | none => none
        | some g2 => g2.set? (a.x - 2) a.y Tile.Filled
      | Direction.Right =>
        match g1.set? (a.x + 1) a.y Tile.Empty with
        | none => none
        | some g2 => g2.set? (a.x + 2) a.y Tile.Filled

/-- The cell enumeration order of the counting loop in `Grid::filled_count`
(`x` outer, `y` inner). -/
def cellList : List (Fin 7 × Fin 7) :=
  (List.finRange 7).flatMap fun x => (List.finRange 7).map fun y => (x, y)

/-- `Grid::filled_count()`: the number of `Filled` cells. -/
def filled_count (g : Grid) : Nat :=
  cellList.countP fun c => decide (g c.1 c.2 = Tile.Filled)


/-- `struct GameTree { state, next_moves, history }`.  The `HashMap` field is
a list of key/value pairs (its keys, drawn from `valid_actions`, are
pairwise distinct, and the code only ever inserts and tests emptiness). -/
inductive GameTree where
  | mk : Grid → List (Action × Option GameTree) → List Action → GameTree

/-- Field `state`. -/
def GameTree.state : GameTree → Grid
  | .mk s _ _ => s

/-- Field `next_moves`. -/
def GameTree.next_moves : GameTree → List (Action × Option GameTree)
  | .mk _ nm _ => nm

/-- Field `history`. -/
def GameTree.history : GameTree → List Action
  | .mk _ _ h => h

/-- The `for action in actions` loop body of `GameTree::search`, with the
recursive call abstracted as `f`.  For each action: apply it (a panic
aborts, `none`), recurse on the child node, and on a `Some(tree)` result
return early if `tree` is a winning leaf (`next_moves` empty, at most one
peg, target cell `Filled` — testing the target cell only after the first
two conjuncts, as `&&` short-circuits in the source, so an out-of-range
target panics only there); otherwise record the child and continue. -/
def searchGo (f : GameTree → List Grid → Option (Option GameTree × List Grid))
    (state : Grid) (history : List Action) (termX termY : Nat) :
    List Action → List Grid → List (Action × Option GameTree) →
    Option (Option GameTree × List Grid)
  | [], memo, nm => some (some (GameTree.mk state nm history), memo)
  | a :: rest, memo, nm =>
    match perform_action state a with
    | none => none
    | some new_state =>
      match f (GameTree.mk new_state [] (history ++ [a])) memo with
      | none => none
      | some (some tree, memo') =>
        if tree.next_moves.isEmpty then
          if filled_count tree.state ≤ 1 then
            match Grid.get? tree.state termX termY with
            | none => none
            | some t =>
              if t = Tile.Filled then some (some tree, memo')
              else searchGo f state history termX termY rest memo' (nm ++ [(a, some tree)])
          else searchGo f state history termX termY rest memo' (nm ++ [(a, some tree)])
        else searchGo f state history termX termY rest memo' (nm ++ [(a, some tree)])
      | some (none, memo') => searchGo f state history termX termY rest memo' (nm ++ [(a, none)])

/-- `GameTree::search(&self, memo, termX, termY)`.  Returns `None` when the
snapshot is already memoized; otherwise inserts it and runs the loop over
`valid_actions`.  The fuel argument only bounds the recursion depth (which
the filled-count bounds in turn); exhausting it is the unreachable outer
`none`. -/
def search : Nat → GameTree → List Grid → Nat → Nat →
    Option (Option GameTree × List Grid)
  | 0, _, _, _, _ => none
  | fuel + 1, t, memo, termX, termY =>
    if t.state ∈ memo then some (none, memo)
    else
      searchGo (fun t' m => search fuel t' m termX termY) t.state t.history termX termY
        (valid_actions t.state) (t.state :: memo) []

/-- One legal transition between snapshots: some generated move maps `g` to
`g'`.  This is exactly the successor relation the traversal explores. -/
def legalStep (g g' : Grid) : Prop :=
  ∃ a, a ∈ valid_actions g ∧ perform_action g a = some g'

/-- `g'` is reachable from `g` by a (possibly empty) sequence of legal
moves. -/
def Reaches : Grid → Grid → Prop :=
  Relation.ReflTransGen legalStep

/-- A snapshot on which the traversal's win test fires when expanded: no
legal moves (so its node's `next_moves` ends up empty), at most one peg,
and the target cell `Filled`. -/
def IsWinState (termX termY : Nat) (g : Grid) : Prop :=
  valid_actions g = [] ∧ filled_count g ≤ 1 ∧ Grid.get? g termX termY = some Tile.Filled

/-- A returned node satisfying the source's early-return test
`tree.next_moves.is_empty() && filled_count() <= 1 && grid[termX][termY] == Filled`. -/
def IsWinLeaf (termX termY : Nat) (r : GameTree) : Prop :=
  r.next_moves = [] ∧ filled_count r.state ≤ 1 ∧
    Grid.get? r.state termX termY = some Tile.Filled

instance (termX termY : Nat) (g : Grid) : Decidable (IsWinState termX termY g) := by
  unfold IsWinState
  exact inferInstance

/-- Replays a move list, checking at each step that the move is one the
generator offers; used to state concrete reachability certificates. -/
def applyChain (g : Grid) : List Action → Option Grid
  | [] => some g
  | a :: rest =>
    if a ∈ valid_actions g then
      match perform_action g a with
      | none => none
      | some g' => applyChain g' rest
    else none

/-- A 31-move winning line for the canonical board with target `(3, 3)`
(checked below by evaluation: every step is generated by `valid_actions`,
and the final snapshot is a win state). -/
def solChain : List Action :=
  [⟨1, 3, Direction.Right⟩, ⟨2, 1, Direction.Down⟩, ⟨0, 2, Direction.Right⟩,
   ⟨0, 4, Direction.Up⟩, ⟨2, 3, Direction.Up⟩, ⟨2, 0, Direction.Down⟩,
   ⟨2, 4, Direction.Left⟩, ⟨2, 6, Direction.Up⟩, ⟨3, 2, Direction.Left⟩,
   ⟨0, 2, Direction.Right⟩, ⟨3, 0, Direction.Down⟩, ⟨3, 2, Direction.Left⟩,
   ⟨3, 4, Direction.Left⟩, ⟨0, 4, Direction.Right⟩, ⟨3, 6, Direction.Up⟩,
   ⟨3, 4, Direction.Left⟩, ⟨5, 2, Direction.Left⟩, ⟨4, 0, Direction.Down⟩,
   ⟨4, 2, Direction.Left⟩, ⟨1, 2, Direction.Right⟩, ⟨3, 2, Direction.Down⟩,
   ⟨4, 4, Direction.Left⟩, ⟨1, 4, Direction.Right⟩, ⟨4, 6, Direction.Up⟩,
   ⟨4, 3, Direction.Down⟩, ⟨6, 4, Direction.Left⟩, ⟨3, 4, Direction.Right⟩,
   ⟨6, 2, Direction.Down⟩, ⟨6, 4, Direction.Left⟩, ⟨4, 5, Direction.Up⟩,
   ⟨5, 3, Direction.Left⟩]

/-- Whether replaying `l` from `g` succeeds and ends in a win state for
target `(3, 3)`; decidable, so the concrete certificate is checked by the
kernel. -/
def chainWins (g : Grid) (l : List Action) : Bool :=
  match applyChain g l with
  | some w => decide (IsWinState 3 3 w)
  | none => false


/-- The jumped cell's coordinates (one step in the move's direction), as the
source computes them in `usize` arithmetic (`Nat` truncated subtraction
here; `verify_action`'s bound test precedes any use where this matters). -/
def jumpPos (a : Action) : Nat × Nat :=
  match a.dir with
  | Direction.Up => (a.x, a.y - 1)
  | Direction.Down => (a.x, a.y + 1)
  | Direction.Left => (a.x - 1, a.y)
  | Direction.Right => (a.x + 1, a.y)

/-- The landing cell's coordinates (two steps in the move's direction). -/
def landPos (a : Action) : Nat × Nat :=
  match a.dir with
  | Direction.Up => (a.x, a.y - 2)
  | Direction.Down => (a.x, a.y + 2)
  | Direction.Left => (a.x - 2, a.y)
  | Direction.Right => (a.x + 2, a.y)

/-- The direction-specific bound test with which `verify_action` opens
(`y < 2`, `y > 4`, `x < 2`, `x > 4` respectively). -/
def boundFail (a : Action) : Prop :=
  match a.dir with
  | Direction.Up => a.y < 2
  | Direction.Down => a.y > 4
  | Direction.Left => a.x < 2
  | Direction.Right => a.x > 4

instance (a : Action) : Decidable (boundFail a) := by
  unfold boundFail
  cases a.dir <;> exact inferInstance

/-- The source cell's coordinates. -/
def srcPos (a : Action) : Nat × Nat := (a.x, a.y)

/-- The jumped cell's coordinates in exact (`Int`) arithmetic, for stating
where the move geometrically points regardless of `usize` truncation. -/
def jumpCoord (a : Action) : Int × Int :=
  match a.dir with
  | Direction.Up => ((a.x : Int), (a.y : Int) - 1)
  | Direction.Down => ((a.x : Int), (a.y : Int) + 1)
  | Direction.Left => ((a.x : Int) - 1, (a.y : Int))
  | Direction.Right => ((a.x : Int) + 1, (a.y : Int))

/-- The landing cell's coordinates in exact (`Int`) arithmetic. -/
def landCoord (a : Action) : Int × Int :=
  match a.dir with
  | Direction.Up => ((a.x : Int), (a.y : Int) - 2)
  | Direction.Down => ((a.x : Int), (a.y : Int) + 2)
  | Direction.Left => ((a.x : Int) - 2, (a.y : Int))
  | Direction.Right => ((a.x : Int) + 2, (a.y : Int))

/-- Whether an exact coordinate pair lies on the playable 7×7 index
range. -/
def coordInRange (p : Int × Int) : Prop :=
  0 ≤ p.1 ∧ p.1 < 7 ∧ 0 ≤ p.2 ∧ p.2 < 7

instance (p : Int × Int) : Decidable (coordInRange p) := by
  unfold coordInRange
  exact inferInstance

/-- The all-`Empty` board: no pegs at all, hence no legal moves and no
winning state anywhere in its (singleton) reachable space. -/
def allEmptyGrid : Grid := fun _ _ => Tile.Empty

/-- A board whose only peg sits at `(3, 2)`: the move `(3, 3) Up` then has a
`Filled` jumped cell and `Empty` landing cell but an `Empty` source. -/
def oneJumpGrid : Grid := allEmptyGrid.setCell 3 2 Tile.Filled

/-- A board whose only peg sits at `(0, 6)`: the move `(0, 7) Up` (source
row outside the grid) then passes `verify_action` — which never looks at
the source cell — yet `perform_action` panics storing to `(0, 7)`. -/
def edgeGrid : Grid := allEmptyGrid.setCell 0 6 Tile.Filled

theorem get?_eq_some (g : Grid) (x y : Nat) (hx : x < 7) (hy : y < 7) :
    Grid.get? g x y = some (g ⟨x, hx⟩ ⟨y, hy⟩) := by
  simp [Grid.get?, hx, hy]

theorem get?_isSome (g : Grid) (x y : Nat) (hx : x < 7) (hy : y < 7) :
    ∃ t, Grid.get? g x y = some t :=
  ⟨_, get?_eq_some g x y hx hy⟩

theorem get?_some_elim {g : Grid} {x y : Nat} {t : Tile}
    (h : Grid.get? g x y = some t) :
    ∃ (hx : x < 7) (hy : y < 7), g ⟨x, hx⟩ ⟨y, hy⟩ = t := by
  by_cases hx : x < 7
  · by_cases hy : y < 7
    · refine ⟨hx, hy, ?_⟩
      rw [get?_eq_some g x y hx hy] at h
      exact Option.some_injective _ h
    · simp [Grid.get?, hx, hy] at h
  · simp [Grid.get?, hx] at h

theorem set?_eq_some (g : Grid) (x y : Nat) (t : Tile) (hx : x < 7) (hy : y < 7) :
    Grid.set? g x y t =
      some (fun i j => if i = ⟨x, hx⟩ ∧ j = ⟨y, hy⟩ then t else g i j) := by
  simp [Grid.set?, hx, hy]

theorem set?_spec {g g' : Grid} {x y : Nat} {t : Tile}
    (h : Grid.set? g x y t = some g') :
    x < 7 ∧ y < 7 ∧
      ∀ i j : Fin 7, g' i j = if i.val = x ∧ j.val = y then t else g i j := by
  by_cases hx : x < 7
  · by_cases hy : y < 7
    · rw [set?_eq_some g x y t hx hy] at h
      refine ⟨hx, hy, fun i j => ?_⟩
      rw [← Option.some_injective _ h]
      by_cases hij : i.val = x ∧ j.val = y
      · have : i = ⟨x, hx⟩ ∧ j = ⟨y, hy⟩ :=
          ⟨Fin.ext hij.1, Fin.ext hij.2⟩
        simp [this, hij]
      · have : ¬(i = ⟨x, hx⟩ ∧ j = ⟨y, hy⟩) := by
          intro hc
          exact hij ⟨by simp [hc.1], by simp [hc.2]⟩
        simp [this, hij]
    · simp [Grid.set?, hx, hy] at h
  · simp [Grid.set?, hx] at h

/-- `verify_action` written uniformly over the four directions. -/
theorem verify_action_char (g : Grid) (a : Action) :
    verify_action g a =
      if boundFail a then some false
      else
        match g.get? (jumpPos a).1 (jumpPos a).2 with
        | none => none
        | some t1 =>
          if t1 ≠ Tile.Filled then some false
          else
            match g.get? (landPos a).1 (landPos a).2 with
            | none => none
            | some t2 => if t2 ≠ Tile.Empty then some false else some true := by
  obtain ⟨x, y, d⟩ := a
  cases d <;> rfl

/-- `perform_action` written uniformly over the four directions. -/
theorem perform_action_char (g : Grid) (a : Action) :
    perform_action g a =
      match verify_action g a with
      | none => none
      | some false => none
      | some true =>
        match g.set? a.x a.y Tile.Empty with
        | none => none
        | some g1 =>
          match g1.set? (jumpPos a).1 (jumpPos a).2 Tile.Empty with
          | none => none
          | some g2 => g2.set? (landPos a).1 (landPos a).2 Tile.Filled := by
  obtain ⟨x, y, d⟩ := a
  cases d <;> rfl

/-- Unpacking `verify_action g a = some true`: the bound test passed, the
jumped cell is `Filled`, and the landing cell is `Empty` (both in range). -/
theorem verify_true_elim {g : Grid} {a : Action}
    (h : verify_action g a = some true) :
    ¬ boundFail a ∧
      (jumpPos a).1 < 7 ∧ (jumpPos a).2 < 7 ∧
      (landPos a).1 < 7 ∧ (landPos a).2 < 7 ∧
      Grid.get? g (jumpPos a).1 (jumpPos a).2 = some Tile.Filled ∧
      Grid.get? g (landPos a).1 (landPos a).2 = some Tile.Empty := by
  rw [verify_action_char] at h
  by_cases hb : boundFail a
  · rw [if_pos hb] at h
    exact absurd h (by simp)
  · rw [if_neg hb] at h
    split at h
    · exact absurd h (by simp)
    · rename_i t1 hj
      split at h
      · exact absurd h (by simp)
      · rename_i ht1
        split at h
        · exact absurd h (by simp)
        · rename_i t2 hl
          split at h
          · exact absurd h (by simp)
          · rename_i ht2
            have e1 : t1 = Tile.Filled := not_ne_iff.mp ht1
            have e2 : t2 = Tile.Empty := not_ne_iff.mp ht2
            subst e1
            subst e2
            obtain ⟨hjx, hjy, _⟩ := get?_some_elim hj
            obtain ⟨hlx, hly, _⟩ := get?_some_elim hl
            exact ⟨hb, hjx, hjy, hlx, hly, hj, hl⟩

theorem verify_true_intro {g : Grid} {a : Action} (hb : ¬ boundFail a)
    (hj : Grid.get? g (jumpPos a).1 (jumpPos a).2 = some Tile.Filled)
    (hl : Grid.get? g (landPos a).1 (landPos a).2 = some Tile.Empty) :
    verify_action g a = some true := by
  rw [verify_action_char, if_neg hb, hj, hl]
  simp

/-- When the bound test passes, source, jumped and landing cells are three
distinct positions. -/
theorem pos_distinct {a : Action} (hb : ¬ boundFail a) :
    srcPos a ≠ jumpPos a ∧ srcPos a ≠ landPos a ∧ jumpPos a ≠ landPos a := by
  obtain ⟨x, y, d⟩ := a
  cases d <;>
    simp only [boundFail, srcPos, jumpPos, landPos, ne_eq, Prod.mk.injEq, not_and,
      not_lt, gt_iff_lt] at hb ⊢ <;>
    omega

/-- Full description of a successful `perform_action`: when the verification
succeeds and the source coordinates are in range, all three stores succeed
and the result differs from `g` exactly at the landing cell (`Filled`) and
the source and jumped cells (`Empty`). -/
theorem perform_spec {g : Grid} {a : Action}
    (hv : verify_action g a = some true) (hx : a.x < 7) (hy : a.y < 7) :
    ∃ g', perform_action g a = some g' ∧
      ∀ i j : Fin 7, g' i j =
        if i.val = (landPos a).1 ∧ j.val = (landPos a).2 then Tile.Filled
        else if i.val = (jumpPos a).1 ∧ j.val = (jumpPos a).2 then Tile.Empty
        else if i.val = a.x ∧ j.val = a.y then Tile.Empty
        else g i j := by
  obtain ⟨hb, hjx, hjy, hlx, hly, hj, hl⟩ := verify_true_elim hv
  obtain ⟨g1, e1⟩ : ∃ g1, Grid.set? g a.x a.y Tile.Empty = some g1 :=
    ⟨_, set?_eq_some g a.x a.y Tile.Empty hx hy⟩
  obtain ⟨g2, e2⟩ : ∃ g2, Grid.set? g1 (jumpPos a).1 (jumpPos a).2 Tile.Empty = some g2 :=
    ⟨_, set?_eq_some g1 (jumpPos a).1 (jumpPos a).2 Tile.Empty hjx hjy⟩
  obtain ⟨g3, e3⟩ : ∃ g3, Grid.set? g2 (landPos a).1 (landPos a).2 Tile.Filled = some g3 :=
    ⟨_, set?_eq_some g2 (landPos a).1 (landPos a).2 Tile.Filled hlx hly⟩
  have s1 := (set?_spec e1).2.2
  have s2 := (set?_spec e2).2.2
  have s3 := (set?_spec e3).2.2
  refine ⟨g3, ?_, ?_⟩
  · simp only [perform_action_char, hv, e1, e2, e3]
  · intro i j
    rw [s3 i j, s2 i j, s1 i j]

/-- Every action that `tile_actions g x y` generates carries source `(x, y)`,
has a `Filled` source cell, and passes `verify_action`. -/
theorem mem_tile_actions_elim {g : Grid} {x y : Fin 7} {a : Action}
    (h : a ∈ tile_actions g x y) :
    a.x = x.val ∧ a.y = y.val ∧ g x y = Tile.Filled ∧
      verify_action g a = some true := by
  unfold tile_actions at h
  by_cases hsrc : g x y = Tile.Filled
  case neg =>
    rw [if_pos hsrc] at h
    exact absurd h (List.not_mem_nil a)
  case pos =>
    rw [if_neg (not_not_intro hsrc)] at h
    rcases List.mem_append.mp h with h | hD
    rcases List.mem_append.mp h with h | hU
    rcases List.mem_append.mp h with hL | hR
    · split at hL
      · rename_i h1
        split at hL
        · rename_i hc
          have ha := List.mem_singleton.mp hL
          subst ha
          refine ⟨rfl, rfl, hsrc, verify_true_intro ?_ ?_ ?_⟩
          · show ¬ (x.val < 2)
            omega
          · show Grid.get? g (x.val - 1) y.val = some Tile.Filled
            rw [get?_eq_some g (x.val - 1) y.val
              (Nat.lt_of_le_of_lt (Nat.sub_le _ _) x.isLt) y.isLt]
            exact congrArg some hc.1
          · show Grid.get? g (x.val - 2) y.val = some Tile.Empty
            rw [get?_eq_some g (x.val - 2) y.val
              (Nat.lt_of_le_of_lt (Nat.sub_le _ _) x.isLt) y.isLt]
            exact congrArg some hc.2
        · exact absurd hL (List.not_mem_nil a)
      · exact absurd hL (List.not_mem_nil a)
    · split at hR
      · rename_i h1
        split at hR
        · rename_i hc
          have ha := List.mem_singleton.mp hR
          subst ha
          refine ⟨rfl, rfl, hsrc, verify_true_intro ?_ ?_ ?_⟩
          · show ¬ (4 < x.val)
            omega
          · show Grid.get? g (x.val + 1) y.val = some Tile.Filled
            rw [get?_eq_some g (x.val + 1) y.val (by omega) y.isLt]
            exact congrArg some hc.1
          · show Grid.get? g (x.val + 2) y.val = some Tile.Empty
            rw [get?_eq_some g (x.val + 2) y.val (by omega) y.isLt]
            exact congrArg some hc.2
        · exact absurd hR (List.not_mem_nil a)
      · exact absurd hR (List.not_mem_nil a)
    · split at hU
      · rename_i h1
        split at hU
        · rename_i hc
          have ha := List.mem_singleton.mp hU
          subst ha
          refine ⟨rfl, rfl, hsrc, verify_true_intro ?_ ?_ ?_⟩
          · show ¬ (y.val < 2)
            omega
          · show Grid.get? g x.val (y.val - 1) = some Tile.Filled
            rw [get?_eq_some g x.val (y.val - 1) x.isLt
              (Nat.lt_of_le_of_lt (Nat.sub_le _ _) y.isLt)]
            exact congrArg some hc.1
          · show Grid.get? g x.val (y.val - 2) = some Tile.Empty
            rw [get?_eq_some g x.val (y.val - 2) x.isLt
              (Nat.lt_of_le_of_lt (Nat.sub_le _ _) y.isLt)]
            exact congrArg some hc.2
        · exact absurd hU (List.not_mem_nil a)
      · exact absurd hU (List.not_mem_nil a)
    · split at hD
      · rename_i h1
        split at hD
        · rename_i hc
          have ha := List.mem_singleton.mp hD
          subst ha
          refine ⟨rfl, rfl, hsrc, verify_true_intro ?_ ?_ ?_⟩
          · show ¬ (4 < y.val)
            omega
          · show Grid.get? g x.val (y.val + 1) = some Tile.Filled
            rw [get?_eq_some g x.val (y.val + 1) x.isLt (by omega)]
            exact congrArg some hc.1
          · show Grid.get? g x.val (y.val + 2) = some Tile.Empty
            rw [get?_eq_some g x.val (y.val + 2) x.isLt (by omega)]
            exact congrArg some hc.2
        · exact absurd hD (List.not_mem_nil a)
      · exact absurd hD (List.not_mem_nil a)

/-- Converse: a move with in-range `Filled` source that passes
`verify_action` is generated by `tile_actions` at its source cell. -/
theorem mem_tile_actions_intro {g : Grid} {a : Action} (hx : a.x < 7) (hy : a.y < 7)
    (hsrc : Grid.get? g a.x a.y = some Tile.Filled)
    (hv : verify_action g a = some true) :
    a ∈ tile_actions g ⟨a.x, hx⟩ ⟨a.y, hy⟩ := by
  obtain ⟨hb, hjx, hjy, hlx, hly, hj, hl⟩ := verify_true_elim hv
  obtain ⟨hx7, hy7, hs⟩ := get?_some_elim hsrc
  obtain ⟨ax, ay, d⟩ := a
  unfold tile_actions
  rw [if_neg (not_not_intro hs)]
  cases d with
  | Left =>
    apply List.mem_append_left
    apply List.mem_append_left
    apply List.mem_append_left
    have h1 : 1 < ax := by
      have : ¬ (ax < 2) := hb
      omega
    have hcond : g ⟨ax - 1, Nat.lt_of_le_of_lt (Nat.sub_le _ _) hx⟩ ⟨ay, hy⟩ = Tile.Filled ∧
        g ⟨ax - 2, Nat.lt_of_le_of_lt (Nat.sub_le _ _) hx⟩ ⟨ay, hy⟩ = Tile.Empty := by
      constructor
      · obtain ⟨p1, p2, e⟩ := get?_some_elim hj
        exact e
      · obtain ⟨p1, p2, e⟩ := get?_some_elim hl
        exact e
    rw [dif_pos h1, if_pos hcond]
    exact List.mem_singleton.mpr rfl
  | Right =>
    apply List.mem_append_left
    apply List.mem_append_left
    apply List.mem_append_right
    have h1 : ax < 5 := by
      have : ¬ (4 < ax) := hb
      omega
    have hcond : g ⟨ax + 1, by omega⟩ ⟨ay, hy⟩ = Tile.Filled ∧
        g ⟨ax + 2, by omega⟩ ⟨ay, hy⟩ = Tile.Empty := by
      constructor
      · obtain ⟨p1, p2, e⟩ := get?_some_elim hj
        exact e
      · obtain ⟨p1, p2, e⟩ := get?_some_elim hl
        exact e
    rw [dif_pos h1, if_pos hcond]
    exact List.mem_singleton.mpr rfl
  | Up =>
    apply List.mem_append_left
    apply List.mem_append_right
    have h1 : 1 < ay := by
      have : ¬ (ay < 2) := hb
      omega
    have hcond : g ⟨ax, hx⟩ ⟨ay - 1, Nat.lt_of_le_of_lt (Nat.sub_le _ _) hy⟩ = Tile.Filled ∧
        g ⟨ax, hx⟩ ⟨ay - 2, Nat.lt_of_le_of_lt (Nat.sub_le _ _) hy⟩ = Tile.Empty := by
      constructor
      · obtain ⟨p1, p2, e⟩ := get?_some_elim hj
        exact e
      · obtain ⟨p1, p2, e⟩ := get?_some_elim hl
        exact e
    rw [dif_pos h1, if_pos hcond]
    exact List.mem_singleton.mpr rfl
  | Down =>
    apply List.mem_append_right
    have h1 : ay < 5 := by
      have : ¬ (4 < ay) := hb
      omega
    have hcond : g ⟨ax, hx⟩ ⟨ay + 1, by omega⟩ = Tile.Filled ∧
        g ⟨ax, hx⟩ ⟨ay + 2, by omega⟩ = Tile.Empty := by
      constructor
      · obtain ⟨p1, p2, e⟩ := get?_some_elim hj
        exact e
      · obtain ⟨p1, p2, e⟩ := get?_some_elim hl
        exact e
    rw [dif_pos h1, if_pos hcond]
    exact List.mem_singleton.mpr rfl

/-- Membership in the full enumeration, characterized: generated iff the
source coordinates are in range, the source cell is `Filled`, and
`verify_action` accepts. -/
theorem mem_valid_actions_iff (g : Grid) (a : Action) :
    a ∈ valid_actions g ↔
      a.x < 7 ∧ a.y < 7 ∧ Grid.get? g a.x a.y = some Tile.Filled ∧
        verify_action g a = some true := by
  constructor
  · intro h
    unfold valid_actions at h
    obtain ⟨x, -, h⟩ := List.mem_flatMap.mp h
    obtain ⟨y, -, h⟩ := List.mem_flatMap.mp h
    obtain ⟨e1, e2, hsrc', hv⟩ := mem_tile_actions_elim h
    refine ⟨e1 ▸ x.isLt, e2 ▸ y.isLt, ?_, hv⟩
    rw [get?_eq_some g a.x a.y (e1 ▸ x.isLt) (e2 ▸ y.isLt)]
    have ex : (⟨a.x, e1 ▸ x.isLt⟩ : Fin 7) = x := Fin.ext e1
    have ey : (⟨a.y, e2 ▸ y.isLt⟩ : Fin 7) = y := Fin.ext e2
    rw [ex, ey, hsrc']
  · rintro ⟨hx, hy, hsrc, hv⟩
    have h := mem_tile_actions_intro hx hy hsrc hv
    unfold valid_actions
    exact List.mem_flatMap.mpr
      ⟨⟨a.x, hx⟩, List.mem_finRange _, List.mem_flatMap.mpr
        ⟨⟨a.y, hy⟩, List.mem_finRange _, h⟩⟩

/-- The loop count agrees with the cardinality of the set of `Filled`
cells. -/
theorem filled_count_eq_card (g : Grid) :
    filled_count g =
      (Finset.univ.filter fun c : Fin 7 × Fin 7 => g c.1 c.2 = Tile.Filled).card := by
  have h1 : ∀ c : Fin 7 × Fin 7, c ∈ cellList := by decide
  have h2 : cellList.Nodup := by decide
  rw [filled_count, List.countP_eq_length_filter]
  have h3 : (cellList.filter fun c => decide (g c.1 c.2 = Tile.Filled)).toFinset =
      Finset.univ.filter fun c : Fin 7 × Fin 7 => g c.1 c.2 = Tile.Filled := by
    ext c
    simp [List.mem_filter, h1 c]
  rw [← h3, List.toFinset_card_of_nodup (h2.filter _)]

/-- Moving one peg over another into an empty cell (three distinct cells:
`Filled`, `Filled`, `Empty` becoming `Empty`, `Empty`, `Filled`, everything
else unchanged) lowers the filled count by exactly one. -/
theorem filled_count_swap (s j l : Fin 7 × Fin 7) {g g' : Grid}
    (hsj : s ≠ j) (hsl : s ≠ l) (hjl : j ≠ l)
    (hgs : g s.1 s.2 = Tile.Filled) (hgj : g j.1 j.2 = Tile.Filled)
    (hgl : g l.1 l.2 = Tile.Empty)
    (hs' : g' s.1 s.2 = Tile.Empty) (hj' : g' j.1 j.2 = Tile.Empty)
    (hl' : g' l.1 l.2 = Tile.Filled)
    (hoth : ∀ c : Fin 7 × Fin 7, c ≠ s → c ≠ j → c ≠ l → g' c.1 c.2 = g c.1 c.2) :
    filled_count g' + 1 = filled_count g := by
  rw [filled_count_eq_card, filled_count_eq_card]
  set A := Finset.univ.filter fun c : Fin 7 × Fin 7 => g c.1 c.2 = Tile.Filled with hA
  set B := Finset.univ.filter fun c : Fin 7 × Fin 7 => g' c.1 c.2 = Tile.Filled with hB
  have hBA : B = insert l (A \ {s, j}) := by
    ext c
    simp only [hA, hB, Finset.mem_insert, Finset.mem_sdiff, Finset.mem_filter,
      Finset.mem_univ, true_and, Finset.mem_singleton]
    by_cases hcl : c = l
    · subst hcl
      simp [hl', hgl]
    · by_cases hcs : c = s
      · subst hcs
        simp [hs', hcl]
      · by_cases hcj : c = j
        · subst hcj
          simp [hj', hcl]
        · rw [hoth c hcs hcj hcl]
          simp [hcl, hcs, hcj]
  have hlA : l ∉ A \ ({s, j} : Finset (Fin 7 × Fin 7)) := by
    intro hc
    have := (Finset.mem_sdiff.mp hc).1
    rw [hA, Finset.mem_filter] at this
    rw [this.2] at hgl
    exact absurd hgl (by decide)
  have hsub : ({s, j} : Finset (Fin 7 × Fin 7)) ⊆ A := by
    intro c hc
    rcases Finset.mem_insert.mp hc with rfl | hc
    · rw [hA, Finset.mem_filter]
      exact ⟨Finset.mem_univ _, hgs⟩
    · rw [Finset.mem_singleton] at hc
      subst hc
      rw [hA, Finset.mem_filter]
      exact ⟨Finset.mem_univ _, hgj⟩
  have hcard2 : ({s, j} : Finset (Fin 7 × Fin 7)).card = 2 := Finset.card_pair hsj
  have hle : 2 ≤ A.card := by
    rw [← hcard2]
    exact Finset.card_le_card hsub
  rw [hBA, Finset.card_insert_of_not_mem hlA, Finset.card_sdiff hsub, hcard2]
  omega

/-- Everything that matters about applying a generated move: it succeeds,
drops the filled count by exactly one, and never changes a `Blocked`
cell. -/
theorem legal_spec {g : Grid} {a : Action} (h : a ∈ valid_actions g) :
    ∃ g', perform_action g a = some g' ∧
      filled_count g' + 1 = filled_count g ∧
      (∀ i j : Fin 7, g i j = Tile.Blocked → g' i j = Tile.Blocked) := by
  obtain ⟨hx, hy, hsrcq, hv⟩ := (mem_valid_actions_iff g a).mp h
  obtain ⟨g', hp, hpt⟩ := perform_spec hv hx hy
  obtain ⟨hb, hjx, hjy, hlx, hly, hjq, hlq⟩ := verify_true_elim hv
  obtain ⟨hd1, hd2, hd3⟩ := pos_distinct hb
  obtain ⟨_, _, hgs⟩ := get?_some_elim hsrcq
  obtain ⟨_, _, hgj⟩ := get?_some_elim hjq
  obtain ⟨_, _, hgl⟩ := get?_some_elim hlq
  have nsl : ¬((a.x : Nat) = (landPos a).1 ∧ (a.y : Nat) = (landPos a).2) :=
    fun hc => hd2 (Prod.ext_iff.mpr ⟨hc.1, hc.2⟩)
  have nsj : ¬((a.x : Nat) = (jumpPos a).1 ∧ (a.y : Nat) = (jumpPos a).2) :=
    fun hc => hd1 (Prod.ext_iff.mpr ⟨hc.1, hc.2⟩)
  have njl : ¬((jumpPos a).1 = (landPos a).1 ∧ (jumpPos a).2 = (landPos a).2) :=
    fun hc => hd3 (Prod.ext_iff.mpr ⟨hc.1, hc.2⟩)
  have hvs : g' ⟨a.x, hx⟩ ⟨a.y, hy⟩ = Tile.Empty := by
    rw [hpt, if_neg nsl, if_neg nsj, if_pos ⟨rfl, rfl⟩]
  have hvj : g' ⟨(jumpPos a).1, hjx⟩ ⟨(jumpPos a).2, hjy⟩ = Tile.Empty := by
    rw [hpt, if_neg njl, if_pos ⟨rfl, rfl⟩]
  have hvl : g' ⟨(landPos a).1, hlx⟩ ⟨(landPos a).2, hly⟩ = Tile.Filled := by
    rw [hpt, if_pos ⟨rfl, rfl⟩]
  refine ⟨g', hp, ?_, ?_⟩
  · refine filled_count_swap (⟨a.x, hx⟩, ⟨a.y, hy⟩)
      (⟨(jumpPos a).1, hjx⟩, ⟨(jumpPos a).2, hjy⟩)
      (⟨(landPos a).1, hlx⟩, ⟨(landPos a).2, hly⟩)
      ?_ ?_ ?_ hgs hgj hgl hvs hvj hvl ?_
    · intro hc
      rw [Prod.ext_iff] at hc
      exact hd1 (Prod.ext_iff.mpr ⟨congrArg Fin.val hc.1, congrArg Fin.val hc.2⟩)
    · intro hc
      rw [Prod.ext_iff] at hc
      exact hd2 (Prod.ext_iff.mpr ⟨congrArg Fin.val hc.1, congrArg Fin.val hc.2⟩)
    · intro hc
      rw [Prod.ext_iff] at hc
      exact hd3 (Prod.ext_iff.mpr ⟨congrArg Fin.val hc.1, congrArg Fin.val hc.2⟩)
    · intro c h1 h2 h3
      rw [hpt]
      rw [if_neg fun hc => h3 (Prod.ext_iff.mpr ⟨Fin.ext hc.1, Fin.ext hc.2⟩)]
      rw [if_neg fun hc => h2 (Prod.ext_iff.mpr ⟨Fin.ext hc.1, Fin.ext hc.2⟩)]
      rw [if_neg fun hc => h1 (Prod.ext_iff.mpr ⟨Fin.ext hc.1, Fin.ext hc.2⟩)]
  · intro i j hBlk
    have n1 : ¬(i.val = (landPos a).1 ∧ j.val = (landPos a).2) := by
      rintro ⟨e1, e2⟩
      have ei : i = ⟨(landPos a).1, hlx⟩ := Fin.ext e1
      have ej : j = ⟨(landPos a).2, hly⟩ := Fin.ext e2
      rw [ei, ej] at hBlk
      exact absurd (hgl.symm.trans hBlk) (by decide)
    have n2 : ¬(i.val = (jumpPos a).1 ∧ j.val = (jumpPos a).2) := by
      rintro ⟨e1, e2⟩
      have ei : i = ⟨(jumpPos a).1, hjx⟩ := Fin.ext e1
      have ej : j = ⟨(jumpPos a).2, hjy⟩ := Fin.ext e2
      rw [ei, ej] at hBlk
      exact absurd (hgj.symm.trans hBlk) (by decide)
    have n3 : ¬(i.val = a.x ∧ j.val = a.y) := by
      rintro ⟨e1, e2⟩
      have ei : i = ⟨a.x, hx⟩ := Fin.ext e1
      have ej : j = ⟨a.y, hy⟩ := Fin.ext e2
      rw [ei, ej] at hBlk
      exact absurd (hgs.symm.trans hBlk) (by decide)
    rw [hpt i j, if_neg n1, if_neg n2, if_neg n3]
    exact hBlk

/-- With the source in range and the bound test passed, the jumped and
landing indices are in range. -/
theorem pos_bounds {a : Action} (hb : ¬ boundFail a) (hx : a.x < 7) (hy : a.y < 7) :
    (jumpPos a).1 < 7 ∧ (jumpPos a).2 < 7 ∧ (landPos a).1 < 7 ∧ (landPos a).2 < 7 := by
  obtain ⟨ax, ay, d⟩ := a
  dsimp only at hx hy
  cases d <;>
    (dsimp only [boundFail, jumpPos, landPos] at hb ⊢) <;>
    omega

/-- `verify_action` cannot panic when the source coordinates are in
range. -/
theorem verify_total (g : Grid) (a : Action) (hx : a.x < 7) (hy : a.y < 7) :
    ∃ b, verify_action g a = some b := by
  rw [verify_action_char]
  by_cases hb : boundFail a
  · exact ⟨false, by rw [if_pos hb]⟩
  · obtain ⟨hj1, hj2, hl1, hl2⟩ := pos_bounds hb hx hy
    rw [if_neg hb]
    by_cases h1 : g ⟨(jumpPos a).1, hj1⟩ ⟨(jumpPos a).2, hj2⟩ = Tile.Filled
    · by_cases h2 : g ⟨(landPos a).1, hl1⟩ ⟨(landPos a).2, hl2⟩ = Tile.Empty
      · exact ⟨true, by simp [get?_eq_some g _ _ hj1 hj2, get?_eq_some g _ _ hl1 hl2, h1, h2]⟩
      · exact ⟨false, by simp [get?_eq_some g _ _ hj1 hj2, get?_eq_some g _ _ hl1 hl2, h1, h2]⟩
    · exact ⟨false, by simp [get?_eq_some g _ _ hj1 hj2, h1]⟩

/-- With the source in range, a geometrically out-of-range jumped or landing
coordinate is always caught by the opening bound test, so `verify_action`
rejects the move. -/
theorem verify_oob_false (g : Grid) (a : Action) (hx : a.x < 7) (hy : a.y < 7)
    (h : ¬ coordInRange (jumpCoord a) ∨ ¬ coordInRange (landCoord a)) :
    verify_action g a = some false := by
  have hb : boundFail a := by
    obtain ⟨ax, ay, d⟩ := a
    dsimp only at hx hy
    cases d <;>
      (simp only [boundFail, jumpCoord, landCoord, coordInRange, not_and_or, not_le,
        not_lt, gt_iff_lt] at h ⊢) <;>
      rcases h with h | h <;>
      omega
  rw [verify_action_char, if_pos hb]

/-- `Blocked` cells survive any single legal transition, hence any reachable
sequence of them. -/
theorem reaches_preserves_blocked {g g' : Grid} (h : Reaches g g') :
    ∀ i j : Fin 7, g i j = Tile.Blocked → g' i j = Tile.Blocked := by
  induction h with
  | refl => exact fun i j hb => hb
  | tail _ hstep ih =>
    intro i j hb
    obtain ⟨a, ha, hp⟩ := hstep
    obtain ⟨g2, hp2, _, hblk⟩ := legal_spec ha
    have he := Option.some.inj (hp2.symm.trans hp)
    rw [← he]
    exact hblk i j (ih i j hb)

/-- Exhaustive description of one successful loop iteration of `searchGo`:
the move applies (else the panic `none` would propagate), the recursive call
returns, and then either its tree is a winning leaf and is returned
immediately, or the loop continues on the rest with the child recorded. -/
theorem searchGo_cons_cases {f : GameTree → List Grid → Option (Option GameTree × List Grid)}
    {state : Grid} {hist : List Action} {tX tY : Nat} {a : Action} {rest : List Action}
    {memo : List Grid} {nm : List (Action × Option GameTree)}
    {res : Option GameTree} {memo₂ : List Grid}
    (h : searchGo f state hist tX tY (a :: rest) memo nm = some (res, memo₂)) :
    ∃ ns, perform_action state a = some ns ∧
      ((∃ tree, f (GameTree.mk ns [] (hist ++ [a])) memo = some (some tree, memo₂) ∧
          res = some tree ∧ IsWinLeaf tX tY tree) ∨
       (∃ tree memo', f (GameTree.mk ns [] (hist ++ [a])) memo = some (some tree, memo') ∧
          ¬ IsWinLeaf tX tY tree ∧
          searchGo f state hist tX tY rest memo' (nm ++ [(a, some tree)]) =
            some (res, memo₂)) ∨
       (∃ memo', f (GameTree.mk ns [] (hist ++ [a])) memo = some (none, memo') ∧
          searchGo f state hist tX tY rest memo' (nm ++ [(a, none)]) =
            some (res, memo₂))) := by
  rw [searchGo] at h
  split at h
  · exact absurd h (by simp)
  · rename_i ns hp
    refine ⟨ns, hp, ?_⟩
    split at h
    · exact absurd h (by simp)
    · rename_i tree memo' hf
      split at h
      · rename_i hEmp
        split at h
        · rename_i hFc
          split at h
          · exact absurd h (by simp)
          · rename_i t hget
            split at h
            · rename_i hFill
              subst hFill
              obtain ⟨h1, h2⟩ := Prod.mk.injEq _ _ _ _ ▸ Option.some.inj h
              subst h2
              exact Or.inl ⟨tree, hf, h1.symm,
                List.isEmpty_iff.mp hEmp, hFc, hget⟩
            · rename_i hFill
              refine Or.inr (Or.inl ⟨tree, memo', hf, ?_, h⟩)
              rintro ⟨-, -, hw3⟩
              rw [hget] at hw3
              exact hFill (Option.some.inj hw3)
        · rename_i hFc
          refine Or.inr (Or.inl ⟨tree, memo', hf, ?_, h⟩)
          rintro ⟨-, hw2, -⟩
          exact hFc hw2
      · rename_i hEmp
        refine Or.inr (Or.inl ⟨tree, memo', hf, ?_, h⟩)
        rintro ⟨hw1, -, -⟩
        rw [hw1] at hEmp
        exact hEmp List.isEmpty_nil
    · rename_i memo' hf
      exact Or.inr (Or.inr ⟨memo', hf, h⟩)

/-- A completed loop never reports the root as already-visited: its result
is always `Some` of a tree. -/
theorem searchGo_inner_some {f : GameTree → List Grid → Option (Option GameTree × List Grid)}
    {state : Grid} {hist : List Action} {tX tY : Nat} :
    ∀ {actions : List Action} {memo : List Grid} {nm : List (Action × Option GameTree)}
      {res : Option GameTree} {memo₂ : List Grid},
      searchGo f state hist tX tY actions memo nm = some (res, memo₂) →
      ∃ r, res = some r := by
  intro actions
  induction actions with
  | nil =>
    intro memo nm res memo₂ h
    rw [searchGo] at h
    exact ⟨_, (Prod.ext_iff.mp (Option.some.inj h)).1.symm⟩
  | cons a rest ih =>
    intro memo nm res memo₂ h
    obtain ⟨ns, hp, hc⟩ := searchGo_cons_cases h
    rcases hc with ⟨tree, -, hr, -⟩ | ⟨tree, memo', -, -, hcont⟩ | ⟨memo', -, hcont⟩
    · exact ⟨tree, hr⟩
    · exact ih hcont
    · exact ih hcont

/-- The loop is total provided its pending moves all come from
`valid_actions`, the recursion (one level down) is total on boards with
fewer pegs, and the target cell is in range. -/
theorem searchGo_total {n : Nat} {tX tY : Nat} (hX : tX < 7) (hY : tY < 7)
    (hrec : ∀ (t' : GameTree) (m : List Grid), filled_count t'.state < n →
      ∃ res m', search n t' m tX tY = some (res, m'))
    (state : Grid) (hist : List Action) (hfs : filled_count state < n + 1) :
    ∀ (actions : List Action), actions ⊆ valid_actions state →
      ∀ (memo₁ : List Grid) (nm : List (Action × Option GameTree)),
        ∃ res memo₂,
          searchGo (fun t' m => search n t' m tX tY) state hist tX tY actions memo₁ nm =
            some (res, memo₂) := by
  intro actions
  induction actions with
  | nil => exact fun _ memo₁ nm => ⟨_, memo₁, rfl⟩
  | cons a rest ih =>
    intro hsub memo₁ nm
    have hsub' : rest ⊆ valid_actions state := fun x hx => hsub (List.mem_cons_of_mem a hx)
    have ha : a ∈ valid_actions state := hsub (List.mem_cons_self a rest)
    obtain ⟨ns, hp, hcnt, -⟩ := legal_spec ha
    have hns : filled_count (GameTree.mk ns [] (hist ++ [a])).state < n := by
      have : filled_count ns + 1 = filled_count state := hcnt
      simp only [GameTree.state]
      omega
    obtain ⟨res', memo'', hs⟩ := hrec (GameTree.mk ns [] (hist ++ [a])) memo₁ hns
    cases res' with
    | none =>
      obtain ⟨res₂, memo₂, h2⟩ := ih hsub' memo'' (nm ++ [(a, none)])
      refine ⟨res₂, memo₂, ?_⟩
      rw [searchGo]
      simp only [hp, hs]
      exact h2
    | some tree =>
      by_cases e1 : tree.next_moves.isEmpty
      · by_cases e2 : filled_count tree.state ≤ 1
        · obtain ⟨tt, hget⟩ := get?_isSome tree.state tX tY hX hY
          by_cases e3 : tt = Tile.Filled
          · refine ⟨some tree, memo'', ?_⟩
            rw [searchGo]
            simp only [hp, hs, hget]
            rw [if_pos e1, if_pos e2, if_pos e3]
          · obtain ⟨res₂, memo₂, h2⟩ := ih hsub' memo'' (nm ++ [(a, some tree)])
            refine ⟨res₂, memo₂, ?_⟩
            rw [searchGo]
            simp only [hp, hs, hget]
            rw [if_pos e1, if_pos e2, if_neg e3]
            exact h2
        · obtain ⟨res₂, memo₂, h2⟩ := ih hsub' memo'' (nm ++ [(a, some tree)])
          refine ⟨res₂, memo₂, ?_⟩
          rw [searchGo]
          simp only [hp, hs]
          rw [if_pos e1, if_neg e2]
          exact h2
      · obtain ⟨res₂, memo₂, h2⟩ := ih hsub' memo'' (nm ++ [(a, some tree)])
        refine ⟨res₂, memo₂, ?_⟩
        rw [searchGo]
        simp only [hp, hs]
        rw [if_neg e1]
        exact h2

/-- `search` is total (never panics, never exhausts its fuel) when the
target cell is in range and the fuel exceeds the filled count, which bounds
the recursion depth because every legal move removes exactly one peg. -/
theorem search_total : ∀ (fuel : Nat) (t : GameTree) (memo : List Grid) (tX tY : Nat),
    tX < 7 → tY < 7 → filled_count t.state < fuel →
    ∃ res memo', search fuel t memo tX tY = some (res, memo') := by
  intro fuel
  induction fuel with
  | zero => exact fun t memo tX tY _ _ hf => absurd hf (by omega)
  | succ n ihn =>
    intro t memo tX tY hX hY hf
    by_cases hm : t.state ∈ memo
    · exact ⟨none, memo, by rw [search, if_pos hm]⟩
    · obtain ⟨res, memo₂, hgo⟩ :=
        searchGo_total hX hY (fun t' m h' => ihn t' m tX tY hX hY h') t.state t.history hf
          (valid_actions t.state) (fun x hx => hx) (t.state :: memo) []
      exact ⟨res, memo₂, by rw [search, if_neg hm]; exact hgo⟩

/-- Loop invariant for a returned winning leaf: its history extends the
current node's by exactly as many moves as pegs were removed (one per
recursion level). -/
theorem searchGo_win_hist {f : GameTree → List Grid → Option (Option GameTree × List Grid)}
    {tX tY : Nat}
    (hfA : ∀ (t : GameTree) (memo : List Grid) (r : GameTree) (memo' : List Grid),
      f t memo = some (some r, memo') → IsWinLeaf tX tY r →
      ∃ k, r.history.length = t.history.length + k ∧
        filled_count t.state = filled_count r.state + k)
    (state : Grid) (hist : List Action) :
    ∀ (actions : List Action), actions ⊆ valid_actions state →
      ∀ (memo : List Grid) (nm : List (Action × Option GameTree)) (r : GameTree)
        (memo₂ : List Grid),
        searchGo f state hist tX tY actions memo nm = some (some r, memo₂) →
        IsWinLeaf tX tY r →
        ∃ k, r.history.length = hist.length + k ∧
          filled_count state = filled_count r.state + k := by
  intro actions
  induction actions with
  | nil =>
    intro _ memo nm r memo₂ h _
    rw [searchGo] at h
    have hr := Option.some.inj (Prod.ext_iff.mp (Option.some.inj h)).1
    refine ⟨0, ?_, ?_⟩ <;> rw [← hr] <;> simp [GameTree.history, GameTree.state]
  | cons a rest ih =>
    intro hsub memo nm r memo₂ h hw
    have hsub' : rest ⊆ valid_actions state := fun x hx => hsub (List.mem_cons_of_mem a hx)
    have ha : a ∈ valid_actions state := hsub (List.mem_cons_self a rest)
    obtain ⟨ns, hp, hc⟩ := searchGo_cons_cases h
    obtain ⟨ns', hp', hcnt, -⟩ := legal_spec ha
    have hnseq : ns' = ns := Option.some.inj (hp'.symm.trans hp)
    subst hnseq
    rcases hc with ⟨tree, hf, hr, hwt⟩ | ⟨tree, memo', hf, hnwt, hcont⟩ | ⟨memo', hf, hcont⟩
    · have hrt : r = tree := Option.some.inj hr
      subst hrt
      obtain ⟨k', hh, hcnt'⟩ := hfA (GameTree.mk ns' [] (hist ++ [a])) memo r memo₂ hf hwt
      have hh' : r.history.length = (hist ++ [a]).length + k' := hh
      have hc1 : filled_count ns' = filled_count r.state + k' := hcnt'
      rw [List.length_append, List.length_singleton] at hh'
      exact ⟨k' + 1, by omega, by omega⟩
    · exact ih hsub' memo' (nm ++ [(a, some tree)]) r memo₂ hcont hw
    · exact ih hsub' memo' (nm ++ [(a, none)]) r memo₂ hcont hw

/-- A winning leaf returned by `search` carries a history longer than its
root's by exactly the number of pegs removed. -/
theorem search_win_hist : ∀ (fuel : Nat) (tX tY : Nat) (t : GameTree) (memo : List Grid)
    (r : GameTree) (memo' : List Grid),
    search fuel t memo tX tY = some (some r, memo') → IsWinLeaf tX tY r →
    ∃ k, r.history.length = t.history.length + k ∧
      filled_count t.state = filled_count r.state + k := by
  intro fuel
  induction fuel with
  | zero =>
    intro tX tY t memo r memo' h
    exact absurd h (by simp [search])
  | succ n ih =>
    intro tX tY t memo r memo' h hw
    rw [search] at h
    by_cases hm : t.state ∈ memo
    · rw [if_pos hm] at h
      exact absurd (Prod.ext_iff.mp (Option.some.inj h)).1 (by simp)
    · rw [if_neg hm] at h
      exact searchGo_win_hist (fun t' m r' m' h' hw' => ih tX tY t' m r' m' h' hw')
        t.state t.history (valid_actions t.state) (fun x hx => hx)
        (t.state :: memo) [] r memo' h hw

/-- Loop invariant for a completed, non-winning pass: the memo set only
grows, every newly memoized snapshot is a non-winning one whose successors
are all memoized by the end, and the successor along each processed move is
memoized. -/
theorem searchGo_closure {f : GameTree → List Grid → Option (Option GameTree × List Grid)}
    {tX tY : Nat}
    (hfB : ∀ (t : GameTree) (memo : List Grid) (res : Option GameTree) (memo' : List Grid),
      f t memo = some (res, memo') → (∀ r, res = some r → ¬ IsWinLeaf tX tY r) →
      memo ⊆ memo' ∧ t.state ∈ memo' ∧
        ∀ g, g ∈ memo' → g ∉ memo → ¬ IsWinState tX tY g ∧
          ∀ g', legalStep g g' → g' ∈ memo')
    (state : Grid) (hist : List Action) :
    ∀ (actions : List Action), actions ⊆ valid_actions state →
      ∀ (memo₁ : List Grid) (nm : List (Action × Option GameTree))
        (res : Option GameTree) (memo₂ : List Grid),
        searchGo f state hist tX tY actions memo₁ nm = some (res, memo₂) →
        (∀ r, res = some r → ¬ IsWinLeaf tX tY r) →
        memo₁ ⊆ memo₂ ∧
        (∀ g, g ∈ memo₂ → g ∉ memo₁ → ¬ IsWinState tX tY g ∧
          ∀ g', legalStep g g' → g' ∈ memo₂) ∧
        (∀ b, b ∈ actions → ∀ g', perform_action state b = some g' → g' ∈ memo₂) := by
  intro actions
  induction actions with
  | nil =>
    intro _ memo₁ nm res memo₂ h _
    rw [searchGo] at h
    obtain ⟨-, h2⟩ := Prod.ext_iff.mp (Option.some.inj h)
    subst h2
    exact ⟨fun _ hx => hx, fun g hg hgn => absurd hg hgn,
      fun b hb => absurd hb (List.not_mem_nil b)⟩
  | cons a rest ih =>
    intro hsub memo₁ nm res memo₂ h hnw
    have hsub' : rest ⊆ valid_actions state := fun x hx => hsub (List.mem_cons_of_mem a hx)
    obtain ⟨ns, hp, hc⟩ := searchGo_cons_cases h
    rcases hc with ⟨tree, hf, hr, hwt⟩ | ⟨tree, memo', hf, hnwt, hcont⟩ | ⟨memo', hf, hcont⟩
    · exact absurd hwt (hnw tree hr)
    · obtain ⟨hm1, hmem_ns, hclA⟩ :=
        hfB (GameTree.mk ns [] (hist ++ [a])) memo₁ (some tree) memo' hf
          (fun r' e => by rw [← Option.some.inj e]; exact hnwt)
      obtain ⟨hm2, hclB, hacts⟩ := ih hsub' memo' (nm ++ [(a, some tree)]) res memo₂ hcont hnw
      refine ⟨fun x hx => hm2 (hm1 hx), ?_, ?_⟩
      · intro g hg hgn
        by_cases hmid : g ∈ memo'
        · obtain ⟨hnwin, hsucc⟩ := hclA g hmid hgn
          exact ⟨hnwin, fun g' hst => hm2 (hsucc g' hst)⟩
        · exact hclB g hg hmid
      · intro b hb g' hpb
        rcases List.mem_cons.mp hb with rfl | hb'
        · have he : g' = ns := Option.some.inj (hpb.symm.trans hp)
          subst he
          exact hm2 hmem_ns
        · exact hacts b hb' g' hpb
    · obtain ⟨hm1, hmem_ns, hclA⟩ :=
        hfB (GameTree.mk ns [] (hist ++ [a])) memo₁ none memo' hf
          (fun r' e => absurd e (by simp))
      obtain ⟨hm2, hclB, hacts⟩ := ih hsub' memo' (nm ++ [(a, none)]) res memo₂ hcont hnw
      refine ⟨fun x hx => hm2 (hm1 hx), ?_, ?_⟩
      · intro g hg hgn
        by_cases hmid : g ∈ memo'
        · obtain ⟨hnwin, hsucc⟩ := hclA g hmid hgn
          exact ⟨hnwin, fun g' hst => hm2 (hsucc g' hst)⟩
        · exact hclB g hg hmid
      · intro b hb g' hpb
        rcases List.mem_cons.mp hb with rfl | hb'
        · have he : g' = ns := Option.some.inj (hpb.symm.trans hp)
          subst he
          exact hm2 hmem_ns
        · exact hacts b hb' g' hpb

/-- If `search` completes without returning a winning leaf, its root is
memoized, the memo set only grew, and the new portion of the memo set is
closed under legal steps and contains no winning state. -/
theorem search_closure : ∀ (fuel : Nat) (tX tY : Nat) (t : GameTree) (memo : List Grid)
    (res : Option GameTree) (memo' : List Grid),
    search fuel t memo tX tY = some (res, memo') →
    (∀ r, res = some r → ¬ IsWinLeaf tX tY r) →
    memo ⊆ memo' ∧ t.state ∈ memo' ∧
      ∀ g, g ∈ memo' → g ∉ memo → ¬ IsWinState tX tY g ∧
        ∀ g', legalStep g g' → g' ∈ memo' := by
  intro fuel
  induction fuel with
  | zero =>
    intro tX tY t memo res memo' h
    exact absurd h (by simp [search])
  | succ n ih =>
    intro tX tY t memo res memo' h hnw
    rw [search] at h
    by_cases hm : t.state ∈ memo
    · rw [if_pos hm] at h
      obtain ⟨-, h2⟩ := Prod.ext_iff.mp (Option.some.inj h)
      subst h2
      exact ⟨fun _ hx => hx, hm, fun g hg hgn => absurd hg hgn⟩
    · rw [if_neg hm] at h
      obtain ⟨hm12, hclose, hacts⟩ :=
        searchGo_closure (fun t' m r' m' h' hn' => ih tX tY t' m r' m' h' hn')
          t.state t.history (valid_actions t.state) (fun x hx => hx)
          (t.state :: memo) [] res memo' h hnw
      refine ⟨fun g hg => hm12 (List.mem_cons_of_mem _ hg),
        hm12 (List.mem_cons_self _ _), ?_⟩
      intro g hg hgn
      by_cases hgs : g = t.state
      · subst hgs
        refine ⟨?_, ?_⟩
        · rintro ⟨hva, hfc, hgt⟩
          rw [hva, searchGo] at h
          have hres := (Prod.ext_iff.mp (Option.some.inj h)).1
          exact hnw _ hres.symm ⟨rfl, hfc, hgt⟩
        · intro g' hst
          obtain ⟨b, hb, hpb⟩ := hst
          exact hacts b hb g' hpb
      · have hgn' : g ∉ t.state :: memo := by
          intro hcm
          rcases List.mem_cons.mp hcm with h' | h'
          · exact hgs h'
          · exact hgn h'
        exact hclose g hg hgn'

/-- A board with a `Filled` cell holds at least one peg. -/
theorem get?_filled_pos {g : Grid} {x y : Nat}
    (h : Grid.get? g x y = some Tile.Filled) : 1 ≤ filled_count g := by
  obtain ⟨hx, hy, hc⟩ := get?_some_elim h
  rw [filled_count_eq_card]
  refine Finset.card_pos.mpr ⟨(⟨x, hx⟩, ⟨y, hy⟩), ?_⟩
  rw [Finset.mem_filter]
  exact ⟨Finset.mem_univ _, hc⟩

/-- A successfully replayed move list witnesses reachability. -/
theorem applyChain_reaches : ∀ (l : List Action) (g w : Grid),
    applyChain g l = some w → Reaches g w := by
  intro l
  induction l with
  | nil =>
    intro g w h
    rw [applyChain] at h
    rw [← Option.some.inj h]
    exact Relation.ReflTransGen.refl
  | cons a rest ih =>
    intro g w h
    rw [applyChain] at h
    split at h
    · rename_i ha
      split at h
      · exact absurd h (by simp)
      · rename_i g' hp
        exact Relation.ReflTransGen.head ⟨a, ha, hp⟩ (ih g' w h)
    · exact absurd h (by simp)

/-- A passing `chainWins` certificate yields a reachable win state. -/
theorem chainWins_spec (g : Grid) (l : List Action) (h : chainWins g l = true) :
    ∃ w, Reaches g w ∧ IsWinState 3 3 w := by
  unfold chainWins at h
  split at h
  · rename_i w heq
    exact ⟨w, applyChain_reaches l g w heq, of_decide_eq_true h⟩
  · exact absurd h (by simp)

/-- The concrete 31-move certificate checks. -/
theorem solChain_wins : chainWins Grid.new solChain = true := by decide

/-- Propagating membership in a step-closed set along reachability. -/
theorem reaches_mem_closed {memo' : List Grid} {g0 w : Grid}
    (hr : Reaches g0 w) (h0 : g0 ∈ memo')
    (hcl : ∀ g ∈ memo', ∀ g', legalStep g g' → g' ∈ memo') : w ∈ memo' := by
  induction hr with
  | refl => exact h0
  | tail _ hbc ih => exact hcl _ ih _ hbc

/-- When its root is not memoized, a completed `search` returns `Some`. -/
theorem search_some_of_not_mem {fuel : Nat} {t : GameTree} {memo : List Grid}
    {tX tY : Nat} {res : Option GameTree} {memo' : List Grid}
    (h : search (fuel + 1) t memo tX tY = some (res, memo'))
    (hm : t.state ∉ memo) : ∃ r, res = some r := by
  rw [search, if_neg hm] at h
  exact searchGo_inner_some h

example : filled_count Grid.new = 32 := by decide
example : Grid.new.get? 3 3 = some Tile.Empty := by decide
example : Grid.new.get? 0 0 = some Tile.Blocked := by decide
example : (valid_actions Grid.new).length = 4 := by decide

/-- C1 (counterexample): on the board whose only peg is at `(3, 2)`, the
move `(3, 3) Up` has a `Filled` jumped cell and an `Empty` landing cell, so
`verify_action` accepts it — but its source cell is `Empty`, so
`valid_actions` does not generate it.  Hence `verify_action` is not
equivalent to membership in `valid_actions` and does not check the same
three conditions (it never examines the source cell). -/
theorem C1_counterexample :
    verify_action oneJumpGrid ⟨3, 3, Direction.Up⟩ = some true ∧
    ⟨3, 3, Direction.Up⟩ ∉ valid_actions oneJumpGrid := by
  decide

/-- C1 (amended): a move appears in `valid_actions` iff its source
coordinates are in range, its source cell is `Filled`, and `verify_action`
returns true; `verify_action` itself checks only the jumped-cell and
landing-cell conditions, so the source-cell condition must be added for the
equivalence to hold. -/
theorem C1_main : ∀ (g : Grid) (a : Action),
    a ∈ valid_actions g ↔
      a.x < 7 ∧ a.y < 7 ∧ Grid.get? g a.x a.y = some Tile.Filled ∧
        verify_action g a = some true :=
  mem_valid_actions_iff

/-- C2 (counterexample): the move `(7, 3) Up` has its jumped cell `(7, 2)`
and landing cell `(7, 1)` outside the playable range, yet `verify_action`
does not return false — it performs an out-of-range access (the `none`
panic), because only the offset in the move's direction is bound-checked,
never the `x` coordinate of an `Up` move. -/
theorem C2_counterexample :
    ¬ coordInRange (jumpCoord ⟨7, 3, Direction.Up⟩) ∧
    ¬ coordInRange (landCoord ⟨7, 3, Direction.Up⟩) ∧
    verify_action Grid.new ⟨7, 3, Direction.Up⟩ = none := by
  decide

/-- C2 (amended): for every move whose source coordinates lie within the
7×7 range, `verify_action` is total (never performs an out-of-range
access), and it returns false whenever the jumped or landing coordinate
lies outside the playable range. -/
theorem C2_main : ∀ (g : Grid) (a : Action), a.x < 7 → a.y < 7 →
    (∃ b, verify_action g a = some b) ∧
    ((¬ coordInRange (jumpCoord a) ∨ ¬ coordInRange (landCoord a)) →
      verify_action g a = some false) :=
  fun g a hx hy => ⟨verify_total g a hx hy, fun h => verify_oob_false g a hx hy h⟩

/-- C2 (witness): the move `(3, 0) Up` aims its jumped and landing cells
above the board; `verify_action` on the initial board rejects it. -/
theorem C2_witness :
    (∃ b, verify_action Grid.new ⟨3, 0, Direction.Up⟩ = some b) ∧
    ((¬ coordInRange (jumpCoord ⟨3, 0, Direction.Up⟩) ∨
        ¬ coordInRange (landCoord ⟨3, 0, Direction.Up⟩)) →
      verify_action Grid.new ⟨3, 0, Direction.Up⟩ = some false) :=
  C2_main Grid.new ⟨3, 0, Direction.Up⟩ (by decide) (by decide)

/-- C4 (counterexample): on the board whose only peg is at `(3, 2)`, the
move `(3, 3) Up` satisfies the `verify_action` precondition, yet applying
it leaves the filled count at 1 instead of decrementing it to 0: the
`Empty` source is "emptied" (no change), the jumped peg is removed, and a
peg is added at the landing cell. -/
theorem C4_counterexample :
    verify_action oneJumpGrid ⟨3, 3, Direction.Up⟩ = some true ∧
    filled_count oneJumpGrid = 1 ∧
    (perform_action oneJumpGrid ⟨3, 3, Direction.Up⟩).map filled_count = some 1 := by
  decide

/-- C4 (amended): for every snapshot and every move drawn from
`valid_actions` (which adds the in-range `Filled`-source condition to
`verify_action`), `perform_action` succeeds and the filled count of the
result is exactly one less than before. -/
theorem C4_main : ∀ (g : Grid) (a : Action), a ∈ valid_actions g →
    ∃ g', perform_action g a = some g' ∧ filled_count g' + 1 = filled_count g := by
  intro g a h
  obtain ⟨g', hp, hc, _⟩ := legal_spec h
  exact ⟨g', hp, hc⟩

/-- C4 (witness): applying the generated move `(3, 5) Up` to the initial
board drops the filled count from 32 to 31. -/
theorem C4_witness :
    ∃ g', perform_action Grid.new ⟨3, 5, Direction.Up⟩ = some g' ∧
      filled_count g' + 1 = filled_count Grid.new :=
  C4_main Grid.new ⟨3, 5, Direction.Up⟩ (by decide)

theorem option_eq_some_getD {α : Type} {o : Option α} (d : α) (h : o.isSome = true) :
    o = some (o.getD d) := by
  cases o with
  | none => cases h
  | some a => rfl

/-- C5: a cell that is `Blocked` in the canonical initial board is still
`Blocked` in every snapshot reachable by any sequence of generated-move
applications. -/
theorem C5_main : ∀ (g : Grid), Reaches Grid.new g →
    ∀ x y : Nat, Grid.get? Grid.new x y = some Tile.Blocked →
      Grid.get? g x y = some Tile.Blocked := by
  intro g hr x y hb
  obtain ⟨hx, hy, hcell⟩ := get?_some_elim hb
  have hpres := reaches_preserves_blocked hr ⟨x, hx⟩ ⟨y, hy⟩ hcell
  rw [get?_eq_some g x y hx hy, hpres]

/-- C5 (witness): after the legal move `(3, 5) Up` from the initial board,
the corner cell `(0, 0)` is still `Blocked`. -/
theorem C5_witness :
    Grid.get? ((perform_action Grid.new ⟨3, 5, Direction.Up⟩).getD Grid.new) 0 0 =
      some Tile.Blocked :=
  C5_main _
    (Relation.ReflTransGen.single
      ⟨⟨3, 5, Direction.Up⟩, by decide, option_eq_some_getD Grid.new (by decide)⟩)
    0 0 (by decide)

/-- C6 (counterexample): on the board whose only peg is at `(0, 6)`, the
move `(0, 7) Up` — source row outside the grid — passes `verify_action`
(its jumped cell `(0, 6)` is `Filled` and landing cell `(0, 5)` is `Empty`,
and the source is never examined), yet `perform_action` does not yield a
new snapshot: it panics (`none`) on the out-of-range store to `(0, 7)`. -/
theorem C6_counterexample :
    verify_action edgeGrid ⟨0, 7, Direction.Up⟩ = some true ∧
    perform_action edgeGrid ⟨0, 7, Direction.Up⟩ = none := by
  decide

/-- C6 (amended): for every move with in-range source coordinates that
satisfies `verify_action`, `perform_action` yields a new snapshot in which
the source and jumped cells are `Empty`, the landing cell is `Filled`, and
every other cell is unchanged (the original snapshot, being a value, is
itself unmodified). -/
theorem C6_main : ∀ (g : Grid) (a : Action), a.x < 7 → a.y < 7 →
    verify_action g a = some true →
    ∃ g', perform_action g a = some g' ∧
      Grid.get? g' a.x a.y = some Tile.Empty ∧
      Grid.get? g' (jumpPos a).1 (jumpPos a).2 = some Tile.Empty ∧
      Grid.get? g' (landPos a).1 (landPos a).2 = some Tile.Filled ∧
      ∀ x y : Nat, (x, y) ≠ srcPos a → (x, y) ≠ jumpPos a → (x, y) ≠ landPos a →
        Grid.get? g' x y = Grid.get? g x y := by
  intro g a hx hy hv
  obtain ⟨g', hp, hpt⟩ := perform_spec hv hx hy
  obtain ⟨hb, hjx, hjy, hlx, hly, -, -⟩ := verify_true_elim hv
  obtain ⟨hd1, hd2, hd3⟩ := pos_distinct hb
  refine ⟨g', hp, ?_, ?_, ?_, ?_⟩
  · rw [get?_eq_some g' a.x a.y hx hy, hpt,
      if_neg (fun hc => hd2 (Prod.ext_iff.mpr ⟨hc.1, hc.2⟩)),
      if_neg (fun hc => hd1 (Prod.ext_iff.mpr ⟨hc.1, hc.2⟩)),
      if_pos ⟨rfl, rfl⟩]
  · rw [get?_eq_some g' _ _ hjx hjy, hpt,
      if_neg (fun hc => hd3 (Prod.ext_iff.mpr ⟨hc.1, hc.2⟩)),
      if_pos ⟨rfl, rfl⟩]
  · rw [get?_eq_some g' _ _ hlx hly, hpt, if_pos ⟨rfl, rfl⟩]
  · intro x y h1 h2 h3
    by_cases hx7 : x < 7
    · by_cases hy7 : y < 7
      · rw [get?_eq_some g' x y hx7 hy7, get?_eq_some g x y hx7 hy7, hpt,
          if_neg (fun hc => h3 (Prod.ext_iff.mpr ⟨hc.1, hc.2⟩)),
          if_neg (fun hc => h2 (Prod.ext_iff.mpr ⟨hc.1, hc.2⟩)),
          if_neg (fun hc => h1 (Prod.ext_iff.mpr ⟨hc.1, hc.2⟩))]
      · simp [Grid.get?, hy7]
    · simp [Grid.get?, hx7]

/-- C6 (witness): the concrete legal move `(3, 5) Up` on the initial board
produces the described snapshot. -/
theorem C6_witness :
    ∃ g', perform_action Grid.new ⟨3, 5, Direction.Up⟩ = some g' ∧
      Grid.get? g' 3 5 = some Tile.Empty ∧
      Grid.get? g' (jumpPos ⟨3, 5, Direction.Up⟩).1 (jumpPos ⟨3, 5, Direction.Up⟩).2 =
        some Tile.Empty ∧
      Grid.get? g' (landPos ⟨3, 5, Direction.Up⟩).1 (landPos ⟨3, 5, Direction.Up⟩).2 =
        some Tile.Filled ∧
      ∀ x y : Nat, (x, y) ≠ srcPos ⟨3, 5, Direction.Up⟩ →
        (x, y) ≠ jumpPos ⟨3, 5, Direction.Up⟩ → (x, y) ≠ landPos ⟨3, 5, Direction.Up⟩ →
        Grid.get? g' x y = Grid.get? Grid.new x y :=
  C6_main Grid.new ⟨3, 5, Direction.Up⟩ (by decide) (by decide) (by decide)

/-- C8: whenever `verify_action` returns false, `perform_action` hits its
assertion and aborts (models: `none`); it never returns a coerced successor
snapshot. -/
theorem C8_main : ∀ (g : Grid) (a : Action),
    verify_action g a = some false → perform_action g a = none := by
  intro g a h
  rw [perform_action_char, h]

/-- C8 (witness): `(3, 3) Up` on the initial board fails verification (its
landing cell is `Filled`), and `perform_action` aborts on it. -/
theorem C8_witness : perform_action Grid.new ⟨3, 3, Direction.Up⟩ = none :=
  C8_main Grid.new ⟨3, 3, Direction.Up⟩ (by decide)

/-- C3 (counterexample): on the all-`Empty` board the traversal exhausts the
reachable state space immediately (the root has no legal moves, so the root
is the only reachable snapshot) without finding a winning node (the board
has zero pegs and the target cell is `Empty`) — yet `search` returns `Some`
of a normal tree value (the fully expanded root), not `None`. -/
theorem C3_counterexample :
    valid_actions allEmptyGrid = [] ∧
    filled_count allEmptyGrid = 0 ∧
    Grid.get? allEmptyGrid 3 3 = some Tile.Empty ∧
    search 1 (GameTree.mk allEmptyGrid [] []) [] 3 3 =
      some (some (GameTree.mk allEmptyGrid [] []), [allEmptyGrid]) :=
  ⟨by decide, by decide, by decide, rfl⟩

/-- C3 (amended): `search` returns `None` only when its root snapshot is
already in the memo set; whenever the root is not memoized — in particular
when the traversal exhausts the reachable space without finding a winning
node — it returns `Some` of a tree value. -/
theorem C3_main : ∀ (fuel : Nat) (t : GameTree) (memo : List Grid) (tX tY : Nat)
    (res : Option GameTree) (memo' : List Grid),
    search (fuel + 1) t memo tX tY = some (res, memo') → t.state ∉ memo →
    ∃ r, res = some r :=
  fun _ _ _ _ _ _ _ h hm => search_some_of_not_mem h hm

/-- C3 (witness): the amended statement at the all-`Empty` run. -/
theorem C3_witness :
    ∃ r, (some (GameTree.mk allEmptyGrid [] []) : Option GameTree) = some r :=
  C3_main 0 (GameTree.mk allEmptyGrid [] []) [] 3 3
    (some (GameTree.mk allEmptyGrid [] [])) [allEmptyGrid] rfl (List.not_mem_nil _)

/-- C7: running the search from the canonical initial board with target
`(3, 3)` and an empty memo set returns a winning node: a snapshot with
exactly one `Filled` cell, located at `(3, 3)`, and a history of exactly
31 moves.  (Fuel 33 exceeds the 32-peg recursion-depth bound, so it is
never exhausted.)  Proved by combining the traversal's closure invariant
with the concrete 31-move certificate `solChain`: were no winning leaf
returned, every reachable snapshot — including the certificate's final
winning state — would end up in the memo set and be non-winning, a
contradiction. -/
theorem C7_main :
    ∃ r memo', search 33 (GameTree.mk Grid.new [] []) [] 3 3 = some (some r, memo') ∧
      filled_count r.state = 1 ∧ Grid.get? r.state 3 3 = some Tile.Filled ∧
      r.history.length = 31 := by
  obtain ⟨res, memo', hs⟩ :=
    search_total 33 (GameTree.mk Grid.new [] []) [] 3 3 (by omega) (by omega) (by decide)
  obtain ⟨r, hr⟩ := search_some_of_not_mem hs (List.not_mem_nil _)
  subst hr
  by_cases hw : IsWinLeaf 3 3 r
  · obtain ⟨k, hh, hc⟩ := search_win_hist 33 3 3 _ _ r memo' hs hw
    have hh0 : r.history.length = 0 + k := hh
    have hc' : filled_count Grid.new = filled_count r.state + k := hc
    have h32 : filled_count Grid.new = 32 := by decide
    have hge : 1 ≤ filled_count r.state := get?_filled_pos hw.2.2
    have hle : filled_count r.state ≤ 1 := hw.2.1
    exact ⟨r, memo', hs, by omega, hw.2.2, by omega⟩
  · exfalso
    obtain ⟨hsub, hroot, hclose⟩ :=
      search_closure 33 3 3 _ _ _ _ hs
        (fun r' e => by rw [← Option.some.inj e]; exact hw)
    obtain ⟨w, hreach, hwin⟩ := chainWins_spec Grid.new solChain solChain_wins
    have hcl' : ∀ g ∈ memo', ∀ g', legalStep g g' → g' ∈ memo' :=
      fun g hg g' hst => (hclose g hg (List.not_mem_nil g)).2 g' hst
    have hwmem : w ∈ memo' := reaches_mem_closed hreach hroot hcl'
    exact (hclose w hwmem (List.not_mem_nil w)).1 hwin

/-- C9: two runs of `search` on the same root, target and memo set produce
identical results — in particular the same final snapshot and move-history
length.  The embedding is a pure function of its inputs, which is faithful
because the source's result never depends on hash-container iteration
order: `valid_actions` is an ordered `Vec`, the memo `HashSet` is only
queried for membership, and `next_moves` is only tested for emptiness. -/
theorem C9_main : ∀ (fuel : Nat) (t : GameTree) (memo : List Grid) (tX tY : Nat)
    (r1 r2 : Option (Option GameTree × List Grid)),
    r1 = search fuel t memo tX tY → r2 = search fuel t memo tX tY →
    r1 = r2 ∧
      (r1.map fun p => p.1.map fun tr => (tr.state, tr.history.length)) =
        (r2.map fun p => p.1.map fun tr => (tr.state, tr.history.length)) := by
  intro fuel t memo tX tY r1 r2 h1 h2
  subst h1
  subst h2
  exact ⟨rfl, rfl⟩

/-- C9 (witness): two runs on the all-`Empty` board agree. -/
theorem C9_witness :
    (some (some (GameTree.mk allEmptyGrid [] []), [allEmptyGrid]) :
        Option (Option GameTree × List Grid)) =
      some (some (GameTree.mk allEmptyGrid [] []), [allEmptyGrid]) ∧
    ((some (some (GameTree.mk allEmptyGrid [] []), [allEmptyGrid]) :
        Option (Option GameTree × List Grid)).map
          fun p => p.1.map fun tr => (tr.state, tr.history.length)) =
      ((some (some (GameTree.mk allEmptyGrid [] []), [allEmptyGrid]) :
        Option (Option GameTree × List Grid)).map
          fun p => p.1.map fun tr => (tr.state, tr.history.length)) :=
  C9_main 1 (GameTree.mk allEmptyGrid [] []) [] 3 3 _ _ rfl rfl

/-- C10: a completed `search` returns `None` exactly when its root snapshot
was already in the memo set; and the call `main` makes — initial board,
target `(3, 3)`, empty memo set — returns `Some`, so the `unwrap` can never
panic. -/
theorem C10_main :
    (∀ (fuel : Nat) (t : GameTree) (memo : List Grid) (tX tY : Nat)
        (res : Option GameTree) (memo' : List Grid),
      search (fuel + 1) t memo tX tY = some (res, memo') →
      (res = none ↔ t.state ∈ memo)) ∧
    (∃ r memo', search 33 (GameTree.mk Grid.new [] []) [] 3 3 = some (some r, memo')) := by
  constructor
  · intro fuel t memo tX tY res memo' h
    by_cases hm : t.state ∈ memo
    · rw [search, if_pos hm] at h
      have he := (Prod.ext_iff.mp (Option.some.inj h)).1
      exact ⟨fun _ => hm, fun _ => he.symm⟩
    · obtain ⟨r, hr⟩ := search_some_of_not_mem h hm
      refine ⟨fun e => ?_, fun hmem => absurd hmem hm⟩
      rw [hr] at e
      exact absurd e (by simp)
  · obtain ⟨res, memo', hs⟩ :=
      search_total 33 (GameTree.mk Grid.new [] []) [] 3 3 (by omega) (by omega) (by decide)
    obtain ⟨r, hr⟩ := search_some_of_not_mem hs (List.not_mem_nil _)
    rw [hr] at hs
    exact ⟨r, memo', hs⟩

/-- C10 (witness): the none-iff-memoized part at the all-`Empty` run. -/
theorem C10_witness :
    (some (GameTree.mk allEmptyGrid [] []) : Option GameTree) = none ↔
      (GameTree.mk allEmptyGrid [] []).state ∈ ([] : List Grid) :=
  C10_main.1 0 (GameTree.mk allEmptyGrid [] []) [] 3 3
    (some (GameTree.mk allEmptyGrid [] [])) [allEmptyGrid] rfl

end Puzzle
